import Mathlib

/-!
Shallow embedding of the core logic of `src/app.py` (a word-cloud
configuration tool) together with proofs about it.

Modelling conventions:
* Python strings are `List Char`; Python ints are `ℤ` (or `ℕ` where the
  source only ever holds non-negative values); Python floats are exact
  rationals `ℚ` (the literal `0.57` is embedded as the exact rational value
  of the IEEE-754 double nearest 0.57, so channel truncation agrees with
  the source on every 8-bit input).
* Fallible code returns `Option`: `none` models a raised exception
  (`ValueError` from `int(..., 16)`, `ZeroDivisionError` from `i / 0`).
* Randomness is passed in explicitly: the shuffled list, the draw of
  `num_big`, and the streams of `randint` results are parameters,
  constrained by hypotheses (permutation, membership in {1,2}, ranges).
* Python dicts keyed by strings are association lists with
  insert-or-overwrite semantics preserving first-insertion order.
* The JSON library (`json.load` / `json.dump`) is external to the
  repository; it is a parameter of the persistence model.  A `json.load`
  call has three possible outcomes — a decoded document, a raised
  `json.JSONDecodeError`, or some other raised exception (such as
  `UnicodeDecodeError` on non-UTF-8 bytes or `RecursionError` on deep
  nesting) — and the source catches only the second.
-/

/-- Python whitespace characters stripped by `int(s, 16)` (ASCII range). -/
def isPySpace (c : Char) : Bool :=
  c.toNat = 32 || c.toNat = 9 || c.toNat = 10 || c.toNat = 13 ||
  c.toNat = 11 || c.toNat = 12

/-- Value of a hexadecimal digit character, `none` if not a hex digit. -/
def hexDigitVal (c : Char) : Option ℕ :=
  if 48 ≤ c.toNat ∧ c.toNat ≤ 57 then some (c.toNat - 48)
  else if 97 ≤ c.toNat ∧ c.toNat ≤ 102 then some (c.toNat - 87)
  else if 65 ≤ c.toNat ∧ c.toNat ≤ 70 then some (c.toNat - 55)
  else none

/-- Strip leading and trailing Python whitespace. -/
def pyStrip (s : List Char) : List Char :=
  ((s.dropWhile isPySpace).reverse.dropWhile isPySpace).reverse

/-- Fold a non-empty run of hex digits into a number. -/
def parseHexRun (acc : ℕ) : List Char → Option ℕ
  | [] => some acc
  | c :: rest =>
    match hexDigitVal c with
    | some v => parseHexRun (16 * acc + v) rest
    | none => none

/-- All-hex-digit string to number; empty string is an error. -/
def parseHexNat : List Char → Option ℕ
  | [] => none
  | l => parseHexRun 0 l

/-- Model of Python `int(s, 16)` restricted to strings of length ≤ 2 — the
only strings the source ever passes (two-character slices).  On that domain
Python accepts surrounding whitespace, one optional sign, and hex digits
(an `0x` prefix or an underscore separator needs ≥ 3 characters, so neither
can occur here).  `none` models the raised `ValueError`. -/
def pyIntHexCore : List Char → Option ℤ
  | [] => none
  | c :: rest =>
    if c = '+' then Option.map (fun n : ℕ => (n : ℤ)) (parseHexNat rest)
    else if c = '-' then Option.map (fun n : ℕ => -(n : ℤ)) (parseHexNat rest)
    else Option.map (fun n : ℕ => (n : ℤ)) (parseHexNat (c :: rest))

def pyIntHex (s : List Char) : Option ℤ :=
  pyIntHexCore (pyStrip s)

/-- Python slice `l[a:b]` (with clamping, for `a ≤ b`). -/
def pySlice (l : List Char) (a b : ℕ) : List Char :=
  (l.drop a).take (b - a)

/-- Model of `hex_to_rgb` from `src/app.py`: strip leading `#` characters, then parse
the three two-character slices at 0, 2, 4 as hex integers.  `none` models
the `ValueError` raised when a slice fails to parse. -/
def hex_to_rgb (hex_color : List Char) : Option (ℤ × ℤ × ℤ) :=
  let t := hex_color.dropWhile (fun c => c = '#')
  match pyIntHex (pySlice t 0 2), pyIntHex (pySlice t 2 4), pyIntHex (pySlice t 4 6) with
  | some r, some g, some b => some (r, g, b)
  | _, _, _ => none

/-- Lowercase hex digit character for a value in [0, 15]. -/
def hexChar (n : ℕ) : Char :=
  if n = 0 then '0' else if n = 1 then '1' else if n = 2 then '2'
  else if n = 3 then '3' else if n = 4 then '4' else if n = 5 then '5'
  else if n = 6 then '6' else if n = 7 then '7' else if n = 8 then '8'
  else if n = 9 then '9' else if n = 10 then 'a' else if n = 11 then 'b'
  else if n = 12 then 'c' else if n = 13 then 'd' else if n = 14 then 'e'
  else if n = 15 then 'f' else '*'

/-- Hex digit expansion of a natural number, most significant first
(fuel-structured so that it reduces in the kernel; `n + 1` units of fuel
always suffice). -/
def natToHexAux : ℕ → ℕ → List Char
  | 0, _ => []
  | fuel + 1, n =>
    if n < 16 then [hexChar n] else natToHexAux fuel (n / 16) ++ [hexChar (n % 16)]

def natToHex (n : ℕ) : List Char := natToHexAux (n + 1) n

/-- Left-pad with `'0'` to the given width. -/
def padZeros (width : ℕ) (l : List Char) : List Char :=
  List.replicate (width - l.length) '0' ++ l

/-- Python `'{:02x}'.format(z)`: lowercase hex, zero-padded to width 2
(the sign of a negative number counts toward the width). -/
def pyFormat02x (z : ℤ) : List Char :=
  if z < 0 then '-' :: padZeros 1 (natToHex z.natAbs)
  else padZeros 2 (natToHex z.natAbs)

/-- Model of `rgb_to_hex` from `src/app.py`: `'#{:02x}{:02x}{:02x}'.format(*rgb)`. -/
def rgb_to_hex (rgb : ℤ × ℤ × ℤ) : List Char :=
  '#' :: (pyFormat02x rgb.1 ++ pyFormat02x rgb.2.1 ++ pyFormat02x rgb.2.2)

/-- Python `int(q)`: truncation toward zero. -/
def pyInt (q : ℚ) : ℤ := if q < 0 then ⌈q⌉ else ⌊q⌋

/-- Python `round(q)`: round half to even.  On a half-integer it picks the
even neighbour; elsewhere it agrees with rounding half up. -/
def pyRound (q : ℚ) : ℤ :=
  if q - ⌊q⌋ = (1 : ℚ) / 2 then (if ⌊q⌋ % 2 = 0 then ⌊q⌋ else ⌊q⌋ + 1)
  else round q

/-- The exact rational value of the IEEE-754 double nearest `0.57`, the
default `factor` of `derive_start_color`.  Truncating `c * factor` in exact
arithmetic agrees with the float computation for every `c` in [0, 255]. -/
def pointFiveSeven : ℚ := 5134103575202365 / 9007199254740992

/-- Model of `derive_start_color` from `src/app.py`: darken each channel of the
parsed final color by `factor`, truncating and flooring at 0. -/
def derive_start_color (final_color : List Char) (factor : ℚ := pointFiveSeven) :
    Option (ℤ × ℤ × ℤ) :=
  (hex_to_rgb final_color).map (fun c =>
    (max 0 (pyInt (c.1 * factor)), max 0 (pyInt (c.2.1 * factor)),
     max 0 (pyInt (c.2.2 * factor))))

/-- Model of `generate_color_stops` from `src/app.py`: `n_stops` colors linearly
interpolated channel-wise between the derived start color and the parsed
final color at parameters `i / (n_stops - 1)`, each channel rounded.
`none` models a raised exception: hex parsing failure, or the
`ZeroDivisionError` from `0 / 0` when `n_stops = 1` (with `n_stops = 0`
the loop body never runs). -/
def generate_color_stops (final_color : List Char) (n_stops : ℕ) :
    Option (List (ℤ × ℤ × ℤ)) :=
  match derive_start_color final_color, hex_to_rgb final_color with
  | some s, some e =>
    if n_stops = 0 then some []
    else if n_stops = 1 then none
    else some ((List.range n_stops).map (fun i : ℕ =>
      (pyRound ((s.1 : ℚ) + ((e.1 : ℚ) - (s.1 : ℚ)) * ((i : ℚ) / ((n_stops : ℚ) - 1))),
       pyRound ((s.2.1 : ℚ) + ((e.2.1 : ℚ) - (s.2.1 : ℚ)) * ((i : ℚ) / ((n_stops : ℚ) - 1))),
       pyRound ((s.2.2 : ℚ) + ((e.2.2 : ℚ) - (s.2.2 : ℚ)) * ((i : ℚ) / ((n_stops : ℚ) - 1))))))
  | _, _ => none

/-- Python dict assignment `d[k] = v`: overwrite the value at an existing
key in place, otherwise append the new binding at the end. -/
def dictInsert (d : List (String × ℕ)) (k : String) (v : ℕ) : List (String × ℕ) :=
  if k ∈ d.map Prod.fst then d.map (fun p => if p.1 = k then (k, v) else p)
  else d ++ [(k, v)]

/-- A `for w in ws: d[w] = draw(i)` loop, where `draw i` is the result of
the `i`-th `random.randint` call of the loop. -/
def dictInsertLoop (d : List (String × ℕ)) (ws : List String) (draw : ℕ → ℕ)
    (i : ℕ) : List (String × ℕ) :=
  match ws with
  | [] => d
  | s :: rest => dictInsertLoop (dictInsert d s (draw i)) rest draw (i + 1)

/-- Model of `assign_varied_frequencies` from `src/app.py`, with the random choices
passed explicitly: `shuffled` is the result of `random.shuffle` on the copy
`words[:]` (a permutation of `words`), `num_big` the result of
`random.choice([1, 2])`, and `wBig i` / `wMed i` / `wSmall i` the `i`-th
results of the `randint(9,10)` / `randint(5,6)` / `randint(1,2)` calls. -/
def assign_varied_frequencies (words shuffled : List String) (num_big : ℕ)
    (wBig wMed wSmall : ℕ → ℕ) : List (String × ℕ) :=
  if words = [] then []
  else
    let big_words := shuffled.take num_big
    let medium_words := (shuffled.drop num_big).take 1
    let small_words := shuffled.drop (num_big + 1)
    dictInsertLoop
      (dictInsertLoop (dictInsertLoop [] big_words wBig 0) medium_words wMed 0)
      small_words wSmall 0

/-- A heap of Python list objects; an address is an index into `cells`.
Used to state that `assign_varied_frequencies` never mutates the list it is
handed (the shuffle runs on the copy `words[:]`). -/
structure PyHeap where
  cells : List (List String)

def readCell (h : PyHeap) (a : ℕ) : List String := h.cells.getD a []

def writeCell (h : PyHeap) (a : ℕ) (l : List String) : PyHeap := ⟨h.cells.set a l⟩

/-- Python `words[:]`: allocate a fresh list object holding a copy of the
contents at `a`; returns the new heap and the fresh address. -/
def copyAlloc (h : PyHeap) (a : ℕ) : PyHeap × ℕ :=
  (⟨h.cells ++ [readCell h a]⟩, h.cells.length)

/-- Python `random.shuffle(l)`: permute the list object at `a` in place (the
permutation the PRNG picks is the parameter `π`). -/
def shuffleCell (h : PyHeap) (a : ℕ) (π : List String → List String) : PyHeap :=
  writeCell h a (π (readCell h a))

/-- Model of `assign_varied_frequencies` again, now with its two opening statements
(`shuffled = words[:]`; `random.shuffle(shuffled)`) modelled as heap
operations: the argument is the address `a` of the caller's list, and the
final heap is returned alongside the frequency dict. -/
def assign_varied_frequencies_heap (h : PyHeap) (a : ℕ)
    (π : List String → List String) (num_big : ℕ)
    (wBig wMed wSmall : ℕ → ℕ) : PyHeap × List (String × ℕ) :=
  if readCell h a = [] then (h, [])
  else
    let alloc := copyAlloc h a
    let h2 := shuffleCell alloc.1 alloc.2 π
    let shuffled := readCell h2 alloc.2
    (h2, dictInsertLoop
      (dictInsertLoop (dictInsertLoop [] (shuffled.take num_big) wBig 0)
        ((shuffled.drop num_big).take 1) wMed 0)
      (shuffled.drop (num_big + 1)) wSmall 0)

/-- JSON values, as produced by the external `json` library. -/
inductive PyJson where
  | null : PyJson
  | bool : Bool → PyJson
  | num : ℚ → PyJson
  | str : List Char → PyJson
  | arr : List PyJson → PyJson
  | obj : List (List Char × PyJson) → PyJson

/-- Outcome of the external `json.load(f)` call on the opened file —
reading, UTF-8 decoding and JSON parsing combined.  It may return a decoded
document, raise `json.JSONDecodeError` (malformed JSON), or raise some
other exception: `UnicodeDecodeError` when the file's bytes are not valid
UTF-8, `RecursionError` on a deeply nested document, `OSError` on a read
failure, and so on. -/
inductive PyLoadResult where
  | ok : PyJson → PyLoadResult
  | decodeError : PyLoadResult
  | otherError : PyLoadResult

/-- Model of `load_saved_configs` from `src/app.py`.  The file system state
is `none` (file absent) or `some bytes`; `parse` is the external
`json.load` applied to the opened file.  The source's
`except json.JSONDecodeError` clause catches only that one exception: an
absent file, a caught decode error, and a decoded non-array document yield
`some []`, an array document yields `some` of its elements, and any other
exception raised by the call propagates out of the function (`none`). -/
def load_saved_configs (parse : List ℕ → PyLoadResult)
    (file : Option (List ℕ)) : Option (List PyJson) :=
  match file with
  | none => some []
  | some s =>
    match parse s with
    | PyLoadResult.ok (PyJson.arr xs) => some xs
    | PyLoadResult.ok _ => some []
    | PyLoadResult.decodeError => some []
    | PyLoadResult.otherError => none

/-- Model of `save_saved_configs` from `src/app.py`: overwrite the file with
the serialization (external `json.dump`, as the bytes it writes) of the
full list of configs; the result is the new file system state. -/
def save_saved_configs (dumps : PyJson → List ℕ) (configs : List PyJson) :
    Option (List ℕ) :=
  some (dumps (PyJson.arr configs))

/-- Per-channel statement of claim C5: across increasing stop index the
channel is non-decreasing when the end value is at least the start value,
non-increasing when it is at most the start value, and every entry lies in
the closed interval between start and end. -/
def monoBetween (a e : ℤ) (l : List ℤ) : Prop :=
  (∀ i j : ℕ, i < j → j < l.length →
    (a ≤ e → l.getD i 0 ≤ l.getD j 0) ∧ (e ≤ a → l.getD j 0 ≤ l.getD i 0)) ∧
  (∀ i : ℕ, i < l.length → min a e ≤ l.getD i 0 ∧ l.getD i 0 ≤ max a e)

/-! ### Sanity examples -/

example : hex_to_rgb ("#ff00d3".toList) = some (255, 0, 211) := by decide
example : hex_to_rgb ("ff00d3a".toList) = some (255, 0, 211) := by decide
example : hex_to_rgb ("ff0z".toList) = none := by decide
example : rgb_to_hex (255, 0, 211) = "#ff00d3".toList := by decide
example : pyRound (5/2) = 2 := by norm_num [pyRound]
example : pyRound (7/2) = 4 := by norm_num [pyRound, round_eq]

example :
    assign_varied_frequencies ["a", "b", "c"] ["b", "c", "a"] 1
      (fun _ => 9) (fun _ => 5) (fun _ => 1) = [("b", 9), ("c", 5), ("a", 1)] := by
  decide

/-! ### Dictionary lemmas -/

theorem map_fst_dictInsert (d : List (String × ℕ)) (k : String) (v : ℕ) :
    (dictInsert d k v).map Prod.fst =
      if k ∈ d.map Prod.fst then d.map Prod.fst else d.map Prod.fst ++ [k] := by
  unfold dictInsert
  by_cases hk : k ∈ d.map Prod.fst
  · rw [if_pos hk, if_pos hk, List.map_map]
    refine List.map_congr_left ?_
    intro p _
    by_cases hp : p.1 = k
    · simp [Function.comp, hp]
    · simp [Function.comp, hp]
  · rw [if_neg hk, if_neg hk, List.map_append]
    rfl

theorem mem_map_fst_dictInsert {d : List (String × ℕ)} {k : String} {v : ℕ}
    {a : String} :
    a ∈ (dictInsert d k v).map Prod.fst ↔ a ∈ d.map Prod.fst ∨ a = k := by
  rw [map_fst_dictInsert]
  split
  · constructor
    · exact fun h => Or.inl h
    · rintro (h | rfl)
      · exact h
      · assumption
  · simp

theorem nodup_map_fst_dictInsert {d : List (String × ℕ)} {k : String} {v : ℕ}
    (h : (d.map Prod.fst).Nodup) :
    ((dictInsert d k v).map Prod.fst).Nodup := by
  rw [map_fst_dictInsert]
  by_cases hk : k ∈ d.map Prod.fst
  · rw [if_pos hk]
    exact h
  · rw [if_neg hk, List.nodup_append]
    refine ⟨h, List.nodup_singleton k, ?_⟩
    intro a ha hak
    simp at hak
    subst hak
    exact hk ha

theorem dictInsert_values {P : ℕ → Prop} {d : List (String × ℕ)} {k : String}
    {v : ℕ} (hd : ∀ p ∈ d, P p.2) (hv : P v) :
    ∀ p ∈ dictInsert d k v, P p.2 := by
  intro p hp
  unfold dictInsert at hp
  split at hp
  · obtain ⟨q, hq, hqp⟩ := List.mem_map.mp hp
    by_cases hqk : q.1 = k
    · simp only [hqk, if_pos] at hqp
      subst hqp
      exact hv
    · simp only [hqk, if_neg, if_false] at hqp
      subst hqp
      exact hd q hq
  · rcases List.mem_append.mp hp with h | h
    · exact hd p h
    · simp at h
      subst h
      exact hv

theorem mem_dictInsert_of_ne {d : List (String × ℕ)} {k a : String} {v x : ℕ}
    (h : (a, x) ∈ d) (hne : a ≠ k) : (a, x) ∈ dictInsert d k v := by
  unfold dictInsert
  split
  · have : (fun p : String × ℕ => if p.1 = k then (k, v) else p) (a, x) = (a, x) := by
      simp [hne]
    rw [← this]
    exact List.mem_map_of_mem _ h
  · exact List.mem_append_left _ h

theorem mem_map_fst_dictInsertLoop {a : String} {draw : ℕ → ℕ} :
    ∀ (ws : List String) (d : List (String × ℕ)) (i : ℕ),
      (a ∈ (dictInsertLoop d ws draw i).map Prod.fst ↔
        a ∈ d.map Prod.fst ∨ a ∈ ws) := by
  intro ws
  induction ws with
  | nil => simp [dictInsertLoop]
  | cons s rest ih =>
    intro d i
    rw [dictInsertLoop, ih]
    rw [mem_map_fst_dictInsert]
    constructor
    · rintro ((h | rfl) | h)
      · exact Or.inl h
      · exact Or.inr (List.mem_cons_self _ _)
      · exact Or.inr (List.mem_cons_of_mem _ h)
    · rintro (h | h)
      · exact Or.inl (Or.inl h)
      · rcases List.mem_cons.mp h with rfl | h
        · exact Or.inl (Or.inr rfl)
        · exact Or.inr h

theorem nodup_map_fst_dictInsertLoop {draw : ℕ → ℕ} :
    ∀ (ws : List String) (d : List (String × ℕ)) (i : ℕ),
      (d.map Prod.fst).Nodup → ((dictInsertLoop d ws draw i).map Prod.fst).Nodup := by
  intro ws
  induction ws with
  | nil => intro d i h; exact h
  | cons s rest ih =>
    intro d i h
    rw [dictInsertLoop]
    exact ih _ _ (nodup_map_fst_dictInsert h)

theorem dictInsertLoop_values (P : ℕ → Prop) (draw : ℕ → ℕ)
    (hdraw : ∀ j, P (draw j)) :
    ∀ (ws : List String) (d : List (String × ℕ)) (i : ℕ),
      (∀ p ∈ d, P p.2) → ∀ p ∈ dictInsertLoop d ws draw i, P p.2 := by
  intro ws
  induction ws with
  | nil => intro d i hd; exact hd
  | cons s rest ih =>
    intro d i hd
    rw [dictInsertLoop]
    exact ih _ _ (dictInsert_values hd (hdraw i))

theorem mem_dictInsertLoop_of_not_mem {a : String} {x : ℕ} {draw : ℕ → ℕ} :
    ∀ (ws : List String) (d : List (String × ℕ)) (i : ℕ),
      (a, x) ∈ d → a ∉ ws → (a, x) ∈ dictInsertLoop d ws draw i := by
  intro ws
  induction ws with
  | nil => intro d i h _; exact h
  | cons s rest ih =>
    intro d i h hna
    rw [dictInsertLoop]
    have has : a ≠ s := fun hc => hna (hc ▸ List.mem_cons_self _ _)
    exact ih _ _ (mem_dictInsert_of_ne h has) (fun hc => hna (List.mem_cons_of_mem _ hc))

/-! ### Rounding lemmas -/

theorem pyRound_intCast (z : ℤ) : pyRound (z : ℚ) = z := by
  norm_num [pyRound, Int.floor_intCast, round_intCast]

theorem pyRound_mono {q r : ℚ} (h : q ≤ r) : pyRound q ≤ pyRound r := by
  have hfl : ⌊q⌋ ≤ ⌊r⌋ := Int.floor_le_floor h
  have hrq : round q ≤ round r := by
    rw [round_eq, round_eq]
    exact Int.floor_le_floor (by linarith)
  unfold pyRound
  by_cases hq : q - (⌊q⌋ : ℚ) = (1 : ℚ) / 2 <;>
    by_cases hr : r - (⌊r⌋ : ℚ) = (1 : ℚ) / 2
  · rw [if_pos hq, if_pos hr]
    by_cases heq : ⌊q⌋ = ⌊r⌋
    · rw [heq]
    · have hlt : ⌊q⌋ < ⌊r⌋ := lt_of_le_of_ne hfl heq
      have h1 : (if ⌊q⌋ % 2 = 0 then ⌊q⌋ else ⌊q⌋ + 1) ≤ ⌊q⌋ + 1 := by split <;> omega
      have h2 : ⌊r⌋ ≤ (if ⌊r⌋ % 2 = 0 then ⌊r⌋ else ⌊r⌋ + 1) := by split <;> omega
      omega
  · rw [if_pos hq, if_neg hr]
    have hq1 : round q = ⌊q⌋ + 1 := by
      rw [round_eq]
      have hstep : q + 1 / 2 = ((⌊q⌋ + 1 : ℤ) : ℚ) := by push_cast; linarith
      rw [hstep, Int.floor_intCast]
    have h1 : (if ⌊q⌋ % 2 = 0 then ⌊q⌋ else ⌊q⌋ + 1) ≤ ⌊q⌋ + 1 := by split <;> omega
    omega
  · rw [if_neg hq, if_pos hr]
    have hlt : q < r := by
      rcases lt_or_eq_of_le h with h' | h'
      · exact h'
      · subst h'
        exact absurd hr hq
    have hround_le : round q ≤ ⌊r⌋ := by
      rw [round_eq]
      have h2 : q + 1 / 2 < ((⌊r⌋ + 1 : ℤ) : ℚ) := by push_cast; linarith
      have h3 := Int.floor_lt.mpr h2
      omega
    have h2 : ⌊r⌋ ≤ (if ⌊r⌋ % 2 = 0 then ⌊r⌋ else ⌊r⌋ + 1) := by split <;> omega
    omega
  · rw [if_neg hq, if_neg hr]
    exact hrq

/-! ### Interpolation lemmas -/

theorem interp_den_pos {n : ℕ} (hn : 2 ≤ n) : (0 : ℚ) < (n : ℚ) - 1 := by
  have : (2 : ℚ) ≤ (n : ℚ) := by exact_mod_cast hn
  linarith

theorem interp_t_mono {n : ℕ} (hn : 2 ≤ n) {i j : ℕ} (hij : i ≤ j) :
    (i : ℚ) / ((n : ℚ) - 1) ≤ (j : ℚ) / ((n : ℚ) - 1) := by
  have hden := interp_den_pos hn
  have hc : (i : ℚ) ≤ (j : ℚ) := by exact_mod_cast hij
  exact (div_le_div_iff_of_pos_right hden).mpr hc

theorem interp_t_nonneg {n : ℕ} (hn : 2 ≤ n) (i : ℕ) :
    (0 : ℚ) ≤ (i : ℚ) / ((n : ℚ) - 1) :=
  div_nonneg (by positivity) (le_of_lt (interp_den_pos hn))

theorem interp_t_le_one {n : ℕ} (hn : 2 ≤ n) {i : ℕ} (hi : i ≤ n - 1) :
    (i : ℚ) / ((n : ℚ) - 1) ≤ 1 := by
  have hden := interp_den_pos hn
  rw [div_le_one hden]
  have h1 : (i : ℚ) ≤ ((n - 1 : ℕ) : ℚ) := by exact_mod_cast hi
  have h2 : ((n - 1 : ℕ) : ℚ) = (n : ℚ) - 1 := by
    have : 1 ≤ n := by omega
    push_cast [this]
    ring
  linarith

theorem pyRound_interp_mono (a e : ℤ) {n : ℕ} (hn : 2 ≤ n) {i j : ℕ} (hij : i ≤ j) :
    (a ≤ e →
      pyRound ((a : ℚ) + ((e : ℚ) - (a : ℚ)) * ((i : ℚ) / ((n : ℚ) - 1))) ≤
        pyRound ((a : ℚ) + ((e : ℚ) - (a : ℚ)) * ((j : ℚ) / ((n : ℚ) - 1)))) ∧
    (e ≤ a →
      pyRound ((a : ℚ) + ((e : ℚ) - (a : ℚ)) * ((j : ℚ) / ((n : ℚ) - 1))) ≤
        pyRound ((a : ℚ) + ((e : ℚ) - (a : ℚ)) * ((i : ℚ) / ((n : ℚ) - 1)))) := by
  have ht := interp_t_mono hn hij
  constructor
  · intro hae
    have hd : (0 : ℚ) ≤ (e : ℚ) - (a : ℚ) := by
      have : (a : ℚ) ≤ (e : ℚ) := by exact_mod_cast hae
      linarith
    exact pyRound_mono (by nlinarith)
  · intro hea
    have hd : (e : ℚ) - (a : ℚ) ≤ 0 := by
      have : (e : ℚ) ≤ (a : ℚ) := by exact_mod_cast hea
      linarith
    exact pyRound_mono (by nlinarith)

theorem pyRound_interp_bounds (a e : ℤ) {n : ℕ} (hn : 2 ≤ n) {i : ℕ} (hi : i ≤ n - 1) :
    min a e ≤ pyRound ((a : ℚ) + ((e : ℚ) - (a : ℚ)) * ((i : ℚ) / ((n : ℚ) - 1))) ∧
    pyRound ((a : ℚ) + ((e : ℚ) - (a : ℚ)) * ((i : ℚ) / ((n : ℚ) - 1))) ≤ max a e := by
  have ht0 := interp_t_nonneg hn i
  have ht1 := interp_t_le_one hn hi
  rcases le_total a e with hae | hea
  · have hd : (0 : ℚ) ≤ (e : ℚ) - (a : ℚ) := by
      have : (a : ℚ) ≤ (e : ℚ) := by exact_mod_cast hae
      linarith
    have hlow : (a : ℚ) ≤ (a : ℚ) + ((e : ℚ) - (a : ℚ)) * ((i : ℚ) / ((n : ℚ) - 1)) := by
      nlinarith
    have hhigh : (a : ℚ) + ((e : ℚ) - (a : ℚ)) * ((i : ℚ) / ((n : ℚ) - 1)) ≤ (e : ℚ) := by
      nlinarith
    constructor
    · rw [min_eq_left hae]
      calc a = pyRound (a : ℚ) := (pyRound_intCast a).symm
        _ ≤ _ := pyRound_mono hlow
    · rw [max_eq_right hae]
      calc pyRound _ ≤ pyRound (e : ℚ) := pyRound_mono hhigh
        _ = e := pyRound_intCast e
  · have hd : (e : ℚ) - (a : ℚ) ≤ 0 := by
      have : (e : ℚ) ≤ (a : ℚ) := by exact_mod_cast hea
      linarith
    have hlow : (e : ℚ) ≤ (a : ℚ) + ((e : ℚ) - (a : ℚ)) * ((i : ℚ) / ((n : ℚ) - 1)) := by
      nlinarith
    have hhigh : (a : ℚ) + ((e : ℚ) - (a : ℚ)) * ((i : ℚ) / ((n : ℚ) - 1)) ≤ (a : ℚ) := by
      nlinarith
    constructor
    · rw [min_eq_right hea]
      calc e = pyRound (e : ℚ) := (pyRound_intCast e).symm
        _ ≤ _ := pyRound_mono hlow
    · rw [max_eq_left hea]
      calc pyRound _ ≤ pyRound (a : ℚ) := pyRound_mono hhigh
        _ = a := pyRound_intCast a

theorem pyRound_interp_zero (a e : ℤ) (n : ℕ) :
    pyRound ((a : ℚ) + ((e : ℚ) - (a : ℚ)) * (((0 : ℕ) : ℚ) / ((n : ℚ) - 1))) = a := by
  have : (((0 : ℕ) : ℚ) / ((n : ℚ) - 1)) = 0 := by
    push_cast
    simp
  rw [this]
  rw [mul_zero, add_zero, pyRound_intCast]

theorem pyRound_interp_last (a e : ℤ) {n i : ℕ} (hn : 2 ≤ n) (hi : i = n - 1) :
    pyRound ((a : ℚ) + ((e : ℚ) - (a : ℚ)) * ((i : ℚ) / ((n : ℚ) - 1))) = e := by
  have hden := interp_den_pos hn
  have h2 : (i : ℚ) = (n : ℚ) - 1 := by
    subst hi
    have : 1 ≤ n := by omega
    push_cast [this]
    ring
  rw [h2, div_self (ne_of_gt hden), mul_one]
  have h3 : (a : ℚ) + ((e : ℚ) - (a : ℚ)) = (e : ℚ) := by ring
  rw [h3, pyRound_intCast]

/-! ### Hex parsing lemmas -/

theorem hexDigitVal_toNat_bounds {c : Char} {v : ℕ} (h : hexDigitVal c = some v) :
    48 ≤ c.toNat ∧ c.toNat ≤ 102 ∧ v < 16 := by
  unfold hexDigitVal at h
  split at h
  · injection h with h
    omega
  · split at h
    · injection h with h
      omega
    · split at h
      · injection h with h
        omega
      · exact Option.noConfusion h

theorem hexDigitVal_not_space {c : Char} {v : ℕ} (h : hexDigitVal c = some v) :
    isPySpace c = false := by
  have hb := hexDigitVal_toNat_bounds h
  unfold isPySpace
  simp only [Bool.or_eq_false_iff, decide_eq_false_iff_not]
  omega

theorem hexDigitVal_ne_plus {c : Char} {v : ℕ} (h : hexDigitVal c = some v) :
    c ≠ '+' := by
  intro hplus
  rw [hplus] at h
  have hnone : hexDigitVal '+' = none := by decide
  rw [hnone] at h
  exact Option.noConfusion h

theorem hexDigitVal_ne_minus {c : Char} {v : ℕ} (h : hexDigitVal c = some v) :
    c ≠ '-' := by
  intro hminus
  rw [hminus] at h
  have hnone : hexDigitVal '-' = none := by decide
  rw [hnone] at h
  exact Option.noConfusion h

theorem dropWhile_eq_self_of_false {p : Char → Bool} :
    ∀ l : List Char, (∀ c ∈ l, p c = false) → l.dropWhile p = l := by
  intro l h
  induction l with
  | nil => rfl
  | cons c rest ih =>
    rw [List.dropWhile_cons, h c (List.mem_cons_self _ _)]
    simp

theorem pyStrip_eq_self {l : List Char} (h : ∀ c ∈ l, isPySpace c = false) :
    pyStrip l = l := by
  unfold pyStrip
  rw [dropWhile_eq_self_of_false l h,
    dropWhile_eq_self_of_false l.reverse (fun c hc => h c (List.mem_reverse.mp hc)),
    List.reverse_reverse]

theorem parseHexNat_pair {c d : Char} {v w : ℕ} (hc : hexDigitVal c = some v)
    (hd : hexDigitVal d = some w) : parseHexNat [c, d] = some (16 * v + w) := by
  show parseHexRun 0 [c, d] = some (16 * v + w)
  rw [parseHexRun, hc]
  show parseHexRun (16 * 0 + v) [d] = some (16 * v + w)
  rw [parseHexRun, hd]
  show some (16 * (16 * 0 + v) + w) = some (16 * v + w)
  congr 1
  ring

theorem pyIntHex_pair {c d : Char} {v w : ℕ} (hc : hexDigitVal c = some v)
    (hd : hexDigitVal d = some w) :
    pyIntHex [c, d] = some ((16 * v + w : ℕ) : ℤ) := by
  have hs : pyStrip [c, d] = [c, d] := by
    refine pyStrip_eq_self ?_
    intro x hx
    rcases List.mem_cons.mp hx with rfl | hx
    · exact hexDigitVal_not_space hc
    · rcases List.mem_cons.mp hx with rfl | hx
      · exact hexDigitVal_not_space hd
      · exact absurd hx (List.not_mem_nil x)
  unfold pyIntHex
  rw [hs, pyIntHexCore]
  rw [if_neg (hexDigitVal_ne_plus hc), if_neg (hexDigitVal_ne_minus hc)]
  rw [parseHexNat_pair hc hd]
  rfl

theorem hex_to_rgb_sixhex {s : List Char} {c0 c1 c2 c3 c4 c5 : Char}
    {rest : List Char} {v0 v1 v2 v3 v4 v5 : ℕ}
    (hs : s.dropWhile (fun c => c = '#') = c0 :: c1 :: c2 :: c3 :: c4 :: c5 :: rest)
    (h0 : hexDigitVal c0 = some v0) (h1 : hexDigitVal c1 = some v1)
    (h2 : hexDigitVal c2 = some v2) (h3 : hexDigitVal c3 = some v3)
    (h4 : hexDigitVal c4 = some v4) (h5 : hexDigitVal c5 = some v5) :
    hex_to_rgb s =
      some (((16 * v0 + v1 : ℕ) : ℤ), ((16 * v2 + v3 : ℕ) : ℤ),
        ((16 * v4 + v5 : ℕ) : ℤ)) := by
  simp only [hex_to_rgb]
  rw [hs]
  have e1 : pySlice (c0 :: c1 :: c2 :: c3 :: c4 :: c5 :: rest) 0 2 = [c0, c1] := rfl
  have e2 : pySlice (c0 :: c1 :: c2 :: c3 :: c4 :: c5 :: rest) 2 4 = [c2, c3] := rfl
  have e3 : pySlice (c0 :: c1 :: c2 :: c3 :: c4 :: c5 :: rest) 4 6 = [c4, c5] := rfl
  rw [e1, e2, e3, pyIntHex_pair h0 h1, pyIntHex_pair h2 h3, pyIntHex_pair h4 h5]

theorem hex_to_rgb_short {s : List Char}
    (h : (s.dropWhile (fun c => c = '#')).length < 5) : hex_to_rgb s = none := by
  simp only [hex_to_rgb]
  have h4 : pySlice (s.dropWhile (fun c => c = '#')) 4 6 = [] := by
    unfold pySlice
    rw [List.drop_eq_nil_of_le (by omega)]
    rfl
  rw [h4]
  have hnone : pyIntHex [] = none := rfl
  rw [hnone]
  cases pyIntHex (pySlice (s.dropWhile (fun c => c = '#')) 0 2) <;>
    cases pyIntHex (pySlice (s.dropWhile (fun c => c = '#')) 2 4) <;> rfl

theorem hexDigitVal_hexChar : ∀ v : ℕ, v < 16 → hexDigitVal (hexChar v) = some v := by
  decide

theorem hexChar_ne_hash : ∀ v : ℕ, v < 16 → hexChar v ≠ '#' := by decide

theorem pyFormat02x_pair :
    ∀ v : ℕ, v < 16 → ∀ w : ℕ, w < 16 →
      pyFormat02x ((16 * v + w : ℕ) : ℤ) = [hexChar v, hexChar w] := by
  decide

/-! ### Color-stop helper lemmas -/

theorem derive_start_color_eq {s : List Char} {e : ℤ × ℤ × ℤ}
    (he : hex_to_rgb s = some e) :
    derive_start_color s = some
      (max 0 (pyInt (e.1 * pointFiveSeven)), max 0 (pyInt (e.2.1 * pointFiveSeven)),
       max 0 (pyInt (e.2.2 * pointFiveSeven))) := by
  unfold derive_start_color
  rw [he]
  rfl

theorem generate_color_stops_eq {s : List Char} {st e : ℤ × ℤ × ℤ} {n : ℕ}
    (hst : derive_start_color s = some st) (he : hex_to_rgb s = some e)
    (hn : 2 ≤ n) :
    generate_color_stops s n = some ((List.range n).map (fun i : ℕ =>
      (pyRound ((st.1 : ℚ) + ((e.1 : ℚ) - (st.1 : ℚ)) * ((i : ℚ) / ((n : ℚ) - 1))),
       pyRound ((st.2.1 : ℚ) + ((e.2.1 : ℚ) - (st.2.1 : ℚ)) * ((i : ℚ) / ((n : ℚ) - 1))),
       pyRound ((st.2.2 : ℚ) + ((e.2.2 : ℚ) - (st.2.2 : ℚ)) * ((i : ℚ) / ((n : ℚ) - 1)))))) := by
  simp only [generate_color_stops, hst, he]
  rw [if_neg (by omega), if_neg (by omega)]

theorem getD_map_range {α : Type} {f : ℕ → α} {d : α} {i n : ℕ} (hi : i < n) :
    ((List.range n).map f).getD i d = f i := by
  rw [List.getD_eq_getElem?_getD, List.getElem?_map, List.getElem?_range hi]
  rfl

theorem monoBetween_interp (a e : ℤ) {n : ℕ} (hn : 2 ≤ n) :
    monoBetween a e ((List.range n).map (fun i : ℕ =>
      pyRound ((a : ℚ) + ((e : ℚ) - (a : ℚ)) * ((i : ℚ) / ((n : ℚ) - 1))))) := by
  constructor
  · intro i j hij hj
    have hjn : j < n := by simpa using hj
    have hin : i < n := lt_trans hij hjn
    rw [getD_map_range hin, getD_map_range hjn]
    exact pyRound_interp_mono a e hn (le_of_lt hij)
  · intro i hi
    have hin : i < n := by simpa using hi
    rw [getD_map_range hin]
    exact pyRound_interp_bounds a e hn (by omega)

/-! ### Claims C2 and C3 (hex conversion) -/

/-- C2 is refuted as stated: `"ff00d3a"` is malformed (seven characters, no
leading `#`, so not exactly six hex digits), yet `hex_to_rgb` does not fail
on it — it returns the channels of the first six digits. -/
theorem claim2_counterexample :
    (['f', 'f', '0', '0', 'd', '3', 'a'] : List Char).length = 7 ∧
    (∀ c ∈ (['f', 'f', '0', '0', 'd', '3', 'a'] : List Char), c ≠ '#') ∧
    hex_to_rgb ['f', 'f', '0', '0', 'd', '3', 'a'] = some (255, 0, 211) := by
  decide

/-- C2 (amended): `hexToRgb` fails whenever its input, after stripping
leading `'#'` characters, is shorter than five characters; and on every
input whose stripped form begins with six hex digits it returns the three
8-bit channel values without error — characters beyond the sixth are
ignored, so wrong-length inputs do not fail in general. -/
theorem claim2_amended :
    (∀ s : List Char, (s.dropWhile (fun c => c = '#')).length < 5 →
      hex_to_rgb s = none) ∧
    (∀ (s : List Char) (c0 c1 c2 c3 c4 c5 : Char) (rest : List Char)
      (v0 v1 v2 v3 v4 v5 : ℕ),
      s.dropWhile (fun c => c = '#') = c0 :: c1 :: c2 :: c3 :: c4 :: c5 :: rest →
      hexDigitVal c0 = some v0 → hexDigitVal c1 = some v1 →
      hexDigitVal c2 = some v2 → hexDigitVal c3 = some v3 →
      hexDigitVal c4 = some v4 → hexDigitVal c5 = some v5 →
      ∃ r g b : ℤ, hex_to_rgb s = some (r, g, b) ∧
        0 ≤ r ∧ r < 256 ∧ 0 ≤ g ∧ g < 256 ∧ 0 ≤ b ∧ b < 256) := by
  constructor
  · exact fun s h => hex_to_rgb_short h
  · intro s c0 c1 c2 c3 c4 c5 rest v0 v1 v2 v3 v4 v5 hs h0 h1 h2 h3 h4 h5
    have b0 := (hexDigitVal_toNat_bounds h0).2.2
    have b1 := (hexDigitVal_toNat_bounds h1).2.2
    have b2 := (hexDigitVal_toNat_bounds h2).2.2
    have b3 := (hexDigitVal_toNat_bounds h3).2.2
    have b4 := (hexDigitVal_toNat_bounds h4).2.2
    have b5 := (hexDigitVal_toNat_bounds h5).2.2
    refine ⟨_, _, _, hex_to_rgb_sixhex hs h0 h1 h2 h3 h4 h5, ?_, ?_, ?_, ?_, ?_, ?_⟩
    all_goals push_cast
    all_goals omega

theorem claim2_witness :
    hex_to_rgb ['f', 'f'] = none ∧
    ∃ r g b : ℤ,
      hex_to_rgb ['#', 'f', 'f', '0', '0', 'd', '3'] = some (r, g, b) ∧
      0 ≤ r ∧ r < 256 ∧ 0 ≤ g ∧ g < 256 ∧ 0 ≤ b ∧ b < 256 :=
  ⟨claim2_amended.1 ['f', 'f'] (by decide),
   claim2_amended.2 ['#', 'f', 'f', '0', '0', 'd', '3'] 'f' 'f' '0' '0' 'd' '3'
     [] 15 15 0 0 13 3 (by decide) (by decide) (by decide) (by decide)
     (by decide) (by decide) (by decide)⟩

/-- C3 is refuted as stated: `"ff00d3"` is a well-formed six-hex-digit
string (the leading `#` being optional), but the round trip produces
`"#ff00d3"`, which is a different string. -/
theorem claim3_counterexample :
    hex_to_rgb ['f', 'f', '0', '0', 'd', '3'] = some (255, 0, 211) ∧
    rgb_to_hex (255, 0, 211) ≠ ['f', 'f', '0', '0', 'd', '3'] := by
  decide

/-- C3 (amended): the round trip `rgb_to_hex (hex_to_rgb x) = x` holds for
every well-formed string of the shape `'#'` followed by six lowercase hex
digits — exactly the shape `rgb_to_hex` itself produces. -/
theorem claim3_amended :
    ∀ v0 : ℕ, v0 < 16 → ∀ v1 : ℕ, v1 < 16 → ∀ v2 : ℕ, v2 < 16 →
    ∀ v3 : ℕ, v3 < 16 → ∀ v4 : ℕ, v4 < 16 → ∀ v5 : ℕ, v5 < 16 →
    ∃ c : ℤ × ℤ × ℤ,
      hex_to_rgb ('#' :: [hexChar v0, hexChar v1, hexChar v2, hexChar v3,
        hexChar v4, hexChar v5]) = some c ∧
      rgb_to_hex c = '#' :: [hexChar v0, hexChar v1, hexChar v2, hexChar v3,
        hexChar v4, hexChar v5] := by
  intro v0 h0 v1 h1 v2 h2 v3 h3 v4 h4 v5 h5
  have hdrop : ('#' :: [hexChar v0, hexChar v1, hexChar v2, hexChar v3,
      hexChar v4, hexChar v5]).dropWhile (fun c => c = '#') =
      hexChar v0 :: hexChar v1 :: hexChar v2 :: hexChar v3 :: hexChar v4 ::
        hexChar v5 :: [] := by
    simp [List.dropWhile_cons, hexChar_ne_hash v0 h0]
  refine ⟨_, hex_to_rgb_sixhex hdrop (hexDigitVal_hexChar v0 h0)
    (hexDigitVal_hexChar v1 h1) (hexDigitVal_hexChar v2 h2)
    (hexDigitVal_hexChar v3 h3) (hexDigitVal_hexChar v4 h4)
    (hexDigitVal_hexChar v5 h5), ?_⟩
  simp only [rgb_to_hex]
  rw [pyFormat02x_pair v0 h0 v1 h1, pyFormat02x_pair v2 h2 v3 h3,
    pyFormat02x_pair v4 h4 v5 h5]
  rfl

theorem claim3_witness :
    ∃ c : ℤ × ℤ × ℤ,
      hex_to_rgb ('#' :: [hexChar 15, hexChar 15, hexChar 0, hexChar 0,
        hexChar 13, hexChar 3]) = some c ∧
      rgb_to_hex c = '#' :: [hexChar 15, hexChar 15, hexChar 0, hexChar 0,
        hexChar 13, hexChar 3] :=
  claim3_amended 15 (by decide) 15 (by decide) 0 (by decide) 0 (by decide)
    13 (by decide) 3 (by decide)

/-! ### Claims C4 and C5 (gradient) -/

/-- C4: for every valid final color (one `hex_to_rgb` parses) and every
`n ≥ 2`, `generate_color_stops` succeeds, produces `n` stops, its first
stop equals the derived start color, and its last stop equals the parsed
final color exactly. -/
theorem claim4_gradient_endpoints (s : List Char) (n : ℕ) (hn : 2 ≤ n)
    (e : ℤ × ℤ × ℤ) (he : hex_to_rgb s = some e) :
    ∃ st stops, derive_start_color s = some st ∧
      generate_color_stops s n = some stops ∧ stops.length = n ∧
      stops.getD 0 (0, 0, 0) = st ∧ stops.getD (n - 1) (0, 0, 0) = e := by
  have hst := derive_start_color_eq he
  refine ⟨_, _, hst, generate_color_stops_eq hst he hn, by simp, ?_, ?_⟩
  · rw [getD_map_range (by omega)]
    rw [pyRound_interp_zero, pyRound_interp_zero, pyRound_interp_zero]
  · rw [getD_map_range (by omega)]
    rw [pyRound_interp_last _ _ hn rfl, pyRound_interp_last _ _ hn rfl,
      pyRound_interp_last _ _ hn rfl]

theorem claim4_witness :
    ∃ st stops,
      derive_start_color ['#', 'f', 'f', '0', '0', 'd', '3'] = some st ∧
      generate_color_stops ['#', 'f', 'f', '0', '0', 'd', '3'] 3 = some stops ∧
      stops.length = 3 ∧ stops.getD 0 (0, 0, 0) = st ∧
      stops.getD (3 - 1) (0, 0, 0) = (255, 0, 211) :=
  claim4_gradient_endpoints ['#', 'f', 'f', '0', '0', 'd', '3'] 3 (by decide)
    (255, 0, 211) (by decide)

/-- C5: for every valid final color and every `n ≥ 2`, each channel of the
stop sequence is monotone consistently with the order of its start and end
values, and every stop's channel stays inside the closed interval they
bound. -/
theorem claim5_gradient_monotone (s : List Char) (n : ℕ) (hn : 2 ≤ n)
    (e : ℤ × ℤ × ℤ) (he : hex_to_rgb s = some e) :
    ∃ st stops, derive_start_color s = some st ∧
      generate_color_stops s n = some stops ∧ stops.length = n ∧
      monoBetween st.1 e.1 (stops.map (fun p => p.1)) ∧
      monoBetween st.2.1 e.2.1 (stops.map (fun p => p.2.1)) ∧
      monoBetween st.2.2 e.2.2 (stops.map (fun p => p.2.2)) := by
  have hst := derive_start_color_eq he
  refine ⟨_, _, hst, generate_color_stops_eq hst he hn, by simp, ?_, ?_, ?_⟩
  · rw [List.map_map]
    exact monoBetween_interp _ _ hn
  · rw [List.map_map]
    exact monoBetween_interp _ _ hn
  · rw [List.map_map]
    exact monoBetween_interp _ _ hn

theorem claim5_witness :
    ∃ st stops,
      derive_start_color ['#', 'f', 'f', '0', '0', 'd', '3'] = some st ∧
      generate_color_stops ['#', 'f', 'f', '0', '0', 'd', '3'] 5 = some stops ∧
      stops.length = 5 ∧
      monoBetween st.1 (255 : ℤ) (stops.map (fun p => p.1)) ∧
      monoBetween st.2.1 (0 : ℤ) (stops.map (fun p => p.2.1)) ∧
      monoBetween st.2.2 (211 : ℤ) (stops.map (fun p => p.2.2)) :=
  claim5_gradient_monotone ['#', 'f', 'f', '0', '0', 'd', '3'] 5 (by decide)
    (255, 0, 211) (by decide)

/-! ### Claims C1, C6, C9 (frequency assignment) -/

/-- C1 is refuted as stated: duplicates are permitted by the claim, but on
the duplicate list `["a", "a"]` with the identity shuffle, `num_big = 1`
and in-range draws 9/5/1, the single key `"a"` first receives the big
weight 9 and is then overwritten by the medium weight 5, so no word ends
with weight ≥ 9. -/
theorem claim1_counterexample :
    List.Perm (["a", "a"] : List String) ["a", "a"] ∧
    ((1 : ℕ) = 1 ∨ (1 : ℕ) = 2) ∧
    assign_varied_frequencies ["a", "a"] ["a", "a"] 1
      (fun _ => 9) (fun _ => 5) (fun _ => 1) = [("a", 5)] ∧
    (∀ p ∈ assign_varied_frequencies ["a", "a"] ["a", "a"] 1
      (fun _ => 9) (fun _ => 5) (fun _ => 1), p.2 < 9) := by
  decide

/-- C1 (amended): for every non-empty word list WITHOUT duplicates, the
mapping returned by `assign_varied_frequencies` gives at least one word a
weight of at least 9 (the first shuffled word keeps its big-tier draw). -/
theorem claim1_amended (words shuffled : List String) (num_big : ℕ)
    (wBig wMed wSmall : ℕ → ℕ) (hne : words ≠ []) (hnd : words.Nodup)
    (hperm : shuffled.Perm words) (hnb : num_big = 1 ∨ num_big = 2)
    (h9 : ∀ i, 9 ≤ wBig i) :
    ∃ w v, (w, v) ∈ assign_varied_frequencies words shuffled num_big
      wBig wMed wSmall ∧ 9 ≤ v := by
  have hndsh : shuffled.Nodup := hperm.nodup_iff.mpr hnd
  have hlen : shuffled.length = words.length := hperm.length_eq
  have hpos : 0 < words.length := List.length_pos.mpr hne
  obtain ⟨s0, tl, rfl⟩ : ∃ s0 tl, shuffled = s0 :: tl := by
    cases shuffled with
    | nil => simp at hlen; omega
    | cons x l => exact ⟨x, l, rfl⟩
  obtain ⟨hs0tl, _⟩ := List.nodup_cons.mp hndsh
  obtain ⟨m, rfl⟩ : ∃ m, num_big = m + 1 := by
    rcases hnb with rfl | rfl
    · exact ⟨0, rfl⟩
    · exact ⟨1, rfl⟩
  refine ⟨s0, wBig 0, ?_, h9 0⟩
  have hA : assign_varied_frequencies words (s0 :: tl) (m + 1) wBig wMed wSmall =
      dictInsertLoop
        (dictInsertLoop (dictInsertLoop [] ((s0 :: tl).take (m + 1)) wBig 0)
          (((s0 :: tl).drop (m + 1)).take 1) wMed 0)
        ((s0 :: tl).drop (m + 1 + 1)) wSmall 0 := by
    unfold assign_varied_frequencies
    rw [if_neg hne]
  rw [hA]
  apply mem_dictInsertLoop_of_not_mem
  · apply mem_dictInsertLoop_of_not_mem
    · show (s0, wBig 0) ∈ dictInsertLoop [] (s0 :: tl.take m) wBig 0
      rw [dictInsertLoop]
      apply mem_dictInsertLoop_of_not_mem
      · exact List.mem_singleton_self (s0, wBig 0)
      · intro hmem
        exact hs0tl (List.mem_of_mem_take hmem)
    · intro hmem
      exact hs0tl (List.mem_of_mem_drop (List.mem_of_mem_take hmem))
  · intro hmem
    exact hs0tl (List.mem_of_mem_drop hmem)

theorem claim1_witness :
    ∃ w v, (w, v) ∈ assign_varied_frequencies ["a", "b"] ["b", "a"] 1
      (fun _ => 9) (fun _ => 5) (fun _ => 1) ∧ 9 ≤ v :=
  claim1_amended ["a", "b"] ["b", "a"] 1 (fun _ => 9) (fun _ => 5) (fun _ => 1)
    (by decide) (by decide) (by decide) (Or.inl rfl) (fun _ => le_refl 9)

/-- C6: each input word appears exactly once among the keys of the
returned mapping, every weight lies in [1, 10], and the empty input yields
the empty mapping. -/
theorem claim6_weight_mapping (words shuffled : List String) (num_big : ℕ)
    (wBig wMed wSmall : ℕ → ℕ) (hperm : shuffled.Perm words)
    (hwB : ∀ i, 9 ≤ wBig i ∧ wBig i ≤ 10)
    (hwM : ∀ i, 5 ≤ wMed i ∧ wMed i ≤ 6)
    (hwS : ∀ i, 1 ≤ wSmall i ∧ wSmall i ≤ 2) :
    (∀ w ∈ words,
      ((assign_varied_frequencies words shuffled num_big wBig wMed wSmall).map
        Prod.fst).count w = 1) ∧
    (∀ p ∈ assign_varied_frequencies words shuffled num_big wBig wMed wSmall,
      1 ≤ p.2 ∧ p.2 ≤ 10) ∧
    (words = [] →
      assign_varied_frequencies words shuffled num_big wBig wMed wSmall = []) := by
  by_cases hw : words = []
  · subst hw
    have hA : assign_varied_frequencies [] shuffled num_big wBig wMed wSmall = [] := rfl
    refine ⟨?_, ?_, fun _ => hA⟩
    · intro w hmem
      exact absurd hmem (List.not_mem_nil w)
    · intro p hp
      rw [hA] at hp
      exact absurd hp (List.not_mem_nil p)
  · have hA : assign_varied_frequencies words shuffled num_big wBig wMed wSmall =
        dictInsertLoop
          (dictInsertLoop (dictInsertLoop [] (shuffled.take num_big) wBig 0)
            ((shuffled.drop num_big).take 1) wMed 0)
          (shuffled.drop (num_big + 1)) wSmall 0 := by
      unfold assign_varied_frequencies
      rw [if_neg hw]
    refine ⟨?_, ?_, fun h => absurd h hw⟩
    · intro w hwmem
      rw [hA]
      have hnodup : ((dictInsertLoop
          (dictInsertLoop (dictInsertLoop [] (shuffled.take num_big) wBig 0)
            ((shuffled.drop num_big).take 1) wMed 0)
          (shuffled.drop (num_big + 1)) wSmall 0).map Prod.fst).Nodup := by
        apply nodup_map_fst_dictInsertLoop
        apply nodup_map_fst_dictInsertLoop
        apply nodup_map_fst_dictInsertLoop
        simp
      have hmem2 : w ∈ shuffled := hperm.mem_iff.mpr hwmem
      have hdd : (shuffled.drop num_big).drop 1 = shuffled.drop (num_big + 1) := by
        rw [List.drop_drop]
      have hsplit : w ∈ shuffled.take num_big ∨
          w ∈ (shuffled.drop num_big).take 1 ∨
          w ∈ shuffled.drop (num_big + 1) := by
        rw [← List.take_append_drop num_big shuffled] at hmem2
        rcases List.mem_append.mp hmem2 with h | h
        · exact Or.inl h
        · rw [← List.take_append_drop 1 (shuffled.drop num_big)] at h
          rcases List.mem_append.mp h with h | h
          · exact Or.inr (Or.inl h)
          · rw [hdd] at h
            exact Or.inr (Or.inr h)
      have hkey : w ∈ (dictInsertLoop
          (dictInsertLoop (dictInsertLoop [] (shuffled.take num_big) wBig 0)
            ((shuffled.drop num_big).take 1) wMed 0)
          (shuffled.drop (num_big + 1)) wSmall 0).map Prod.fst := by
        rw [mem_map_fst_dictInsertLoop, mem_map_fst_dictInsertLoop,
          mem_map_fst_dictInsertLoop]
        simp only [List.map_nil, List.not_mem_nil, false_or]
        tauto
      exact List.count_eq_one_of_mem hnodup hkey
    · have P1 : ∀ p ∈ dictInsertLoop [] (shuffled.take num_big) wBig 0,
          1 ≤ p.2 ∧ p.2 ≤ 10 :=
        dictInsertLoop_values (fun x => 1 ≤ x ∧ x ≤ 10) wBig
          (fun j => by have := hwB j; omega) _ _ _
          (fun p hp => absurd hp (List.not_mem_nil p))
      have P2 : ∀ p ∈ dictInsertLoop
          (dictInsertLoop [] (shuffled.take num_big) wBig 0)
          ((shuffled.drop num_big).take 1) wMed 0, 1 ≤ p.2 ∧ p.2 ≤ 10 :=
        dictInsertLoop_values (fun x => 1 ≤ x ∧ x ≤ 10) wMed
          (fun j => by have := hwM j; omega) _ _ _ P1
      rw [hA]
      exact dictInsertLoop_values (fun x => 1 ≤ x ∧ x ≤ 10) wSmall
        (fun j => by have := hwS j; omega) _ _ _ P2

theorem claim6_witness :
    (∀ w ∈ (["a", "b", "c"] : List String),
      ((assign_varied_frequencies ["a", "b", "c"] ["b", "c", "a"] 1
        (fun _ => 9) (fun _ => 5) (fun _ => 1)).map Prod.fst).count w = 1) ∧
    (∀ p ∈ assign_varied_frequencies ["a", "b", "c"] ["b", "c", "a"] 1
      (fun _ => 9) (fun _ => 5) (fun _ => 1), 1 ≤ p.2 ∧ p.2 ≤ 10) ∧
    ((["a", "b", "c"] : List String) = [] →
      assign_varied_frequencies ["a", "b", "c"] ["b", "c", "a"] 1
        (fun _ => 9) (fun _ => 5) (fun _ => 1) = []) :=
  claim6_weight_mapping ["a", "b", "c"] ["b", "c", "a"] 1
    (fun _ => 9) (fun _ => 5) (fun _ => 1) (by decide)
    (fun _ => ⟨by norm_num, by norm_num⟩) (fun _ => ⟨by norm_num, by norm_num⟩)
    (fun _ => ⟨by norm_num, by norm_num⟩)

/-- C9: on a single-element word list the result is exactly one big-tier
entry for that word with weight in [9, 10] — for both possible draws of
`num_big`, even though `num_big` may exceed the list length. -/
theorem claim9_singleton (s : String) (shuffled : List String) (num_big : ℕ)
    (wBig wMed wSmall : ℕ → ℕ) (hperm : shuffled.Perm [s])
    (hnb : num_big = 1 ∨ num_big = 2) (h9 : 9 ≤ wBig 0) (h10 : wBig 0 ≤ 10) :
    assign_varied_frequencies [s] shuffled num_big wBig wMed wSmall =
      [(s, wBig 0)] ∧ 9 ≤ wBig 0 ∧ wBig 0 ≤ 10 := by
  have hsh : shuffled = [s] := List.perm_singleton.mp hperm
  subst hsh
  refine ⟨?_, h9, h10⟩
  rcases hnb with rfl | rfl
  · rfl
  · rfl

theorem claim9_witness :
    assign_varied_frequencies ["solo"] ["solo"] 2
      (fun _ => 10) (fun _ => 5) (fun _ => 1) = [("solo", 10)] ∧
    9 ≤ 10 ∧ 10 ≤ 10 :=
  claim9_singleton ("solo") ["solo"] 2 (fun _ => 10) (fun _ => 5) (fun _ => 1)
    (by decide) (Or.inr rfl) (by decide) (by decide)

/-! ### Claim C10 (no mutation of the argument list) -/

/-- C10: `assign_varied_frequencies` never mutates the caller's list: the
heap cell passed in holds the same contents after the call, because the
shuffle runs on the freshly allocated copy `words[:]`. -/
theorem claim10_no_mutation (h : PyHeap) (a : ℕ) (π : List String → List String)
    (num_big : ℕ) (wBig wMed wSmall : ℕ → ℕ) (ha : a < h.cells.length) :
    readCell (assign_varied_frequencies_heap h a π num_big wBig wMed wSmall).1 a =
      readCell h a := by
  unfold assign_varied_frequencies_heap
  by_cases he : readCell h a = []
  · rw [if_pos he]
  · rw [if_neg he]
    show readCell (writeCell ⟨h.cells ++ [readCell h a]⟩ h.cells.length
      (π (readCell ⟨h.cells ++ [readCell h a]⟩ h.cells.length))) a = readCell h a
    unfold readCell writeCell
    rw [List.getD_eq_getElem?_getD, List.getD_eq_getElem?_getD]
    rw [List.getElem?_set_ne (by omega)]
    rw [List.getElem?_append, if_pos ha]

theorem claim10_witness :
    readCell (assign_varied_frequencies_heap ⟨[["a", "b"]]⟩ 0 List.reverse 1
      (fun _ => 9) (fun _ => 5) (fun _ => 1)).1 0 = readCell ⟨[["a", "b"]]⟩ 0 :=
  claim10_no_mutation ⟨[["a", "b"]]⟩ 0 List.reverse 1
    (fun _ => 9) (fun _ => 5) (fun _ => 1) (by decide)

/-! ### Claims C7 and C8 (persistence) -/

/-- C7 is refuted as stated: `load_saved_configs` can raise.  On a file
whose contents are the single byte 255 (an invalid UTF-8 start byte, so
the `json.load` call raises `UnicodeDecodeError`, which the source's
`except json.JSONDecodeError` clause does not catch — likewise a deeply
nested document raising `RecursionError`), the exception propagates out of
the function instead of a sequence being returned. -/
theorem claim7_counterexample :
    load_saved_configs (fun _ => PyLoadResult.otherError) (some [255]) = none := by
  rfl

/-- C7 (amended): only `json.JSONDecodeError` is silently recovered.  An
absent file, a caught decode error, and a decoded non-array document all
yield the empty sequence without an exception, and an array document
yields its elements; but when the `json.load` call raises any other
exception (non-UTF-8 bytes, deep nesting, ...), that exception propagates
out of `load_saved_configs`. -/
theorem claim7_amended (parse : List ℕ → PyLoadResult) :
    load_saved_configs parse none = some [] ∧
    (∀ s, parse s = PyLoadResult.decodeError →
      load_saved_configs parse (some s) = some []) ∧
    (∀ s j, parse s = PyLoadResult.ok j → (∀ xs, j ≠ PyJson.arr xs) →
      load_saved_configs parse (some s) = some []) ∧
    (∀ s xs, parse s = PyLoadResult.ok (PyJson.arr xs) →
      load_saved_configs parse (some s) = some xs) ∧
    (∀ s, parse s = PyLoadResult.otherError →
      load_saved_configs parse (some s) = none) := by
  refine ⟨rfl, ?_, ?_, ?_, ?_⟩
  · intro s hdec
    simp only [load_saved_configs, hdec]
  · intro s j hj hne
    cases j with
    | arr xs => exact absurd rfl (hne xs)
    | null => simp only [load_saved_configs, hj]
    | bool b => simp only [load_saved_configs, hj]
    | num q => simp only [load_saved_configs, hj]
    | str t => simp only [load_saved_configs, hj]
    | obj kvs => simp only [load_saved_configs, hj]
  · intro s xs hxs
    simp only [load_saved_configs, hxs]
  · intro s hoth
    simp only [load_saved_configs, hoth]

theorem claim7_witness :
    load_saved_configs (fun _ => PyLoadResult.decodeError) (some [123]) = some [] :=
  (claim7_amended (fun _ => PyLoadResult.decodeError)).2.1 [123] rfl

/-- C8: store round trip — writing any list of snapshots with
`save_saved_configs` and reading the file back with `load_saved_configs`
returns exactly that list (and raises nothing), under the hypothesis that
the external JSON decoder successfully inverts the encoder on the document
just written (the json library's contract on the valid UTF-8 output of
`json.dump`). -/
theorem claim8_store_roundtrip (parse : List ℕ → PyLoadResult)
    (dumps : PyJson → List ℕ) (configs : List PyJson)
    (hinv : parse (dumps (PyJson.arr configs)) =
      PyLoadResult.ok (PyJson.arr configs)) :
    load_saved_configs parse (save_saved_configs dumps configs) =
      some configs := by
  simp only [save_saved_configs, load_saved_configs, hinv]

theorem claim8_witness :
    load_saved_configs (fun _ => PyLoadResult.ok (PyJson.arr [PyJson.null]))
      (save_saved_configs (fun _ => []) [PyJson.null]) = some [PyJson.null] :=
  claim8_store_roundtrip (fun _ => PyLoadResult.ok (PyJson.arr [PyJson.null]))
    (fun _ => []) [PyJson.null] rfl
